import Mathlib

/-!
Verification of the superset-json-api-connector core: the SQL-fragment
translator (`_parse_limit`, `_parse_filters`), the JSON row normalizer
(`JSONAPICursor._normalize_data` and `format_api_response_for_superset`),
column type inference (`JSONAPIDialect.get_columns`,
`JSONAPICursor._create_description`) and the `execute` control flow.

Query text is modelled as `List Char`.  Python's `re` character classes
`\s`, `\d`, `\w` and `re.IGNORECASE` folding are modelled over ASCII
(the repository only ever feeds ASCII SQL text to these helpers).
Python dictionaries are modelled as insertion-ordered association lists
with unique keys (`dictInsert` updates in place, `dictGet` looks up).
-/

/-- ASCII lower-casing, as applied by `re.IGNORECASE` on the ASCII letters. -/
def lowerAscii (c : Char) : Char :=
  if 65 ≤ c.toNat ∧ c.toNat ≤ 90 then Char.ofNat (c.toNat + 32) else c

/-- Python regex `\s` (ASCII part): space, tab, newline, carriage return,
vertical tab, form feed. -/
def isPySpace (c : Char) : Bool :=
  c.toNat = 32 ∨ c.toNat = 9 ∨ c.toNat = 10 ∨ c.toNat = 13 ∨ c.toNat = 11 ∨ c.toNat = 12

/-- Python regex `\d` (ASCII part): the decimal digits. -/
def isPyDigit (c : Char) : Bool :=
  48 ≤ c.toNat ∧ c.toNat ≤ 57

/-- Python regex `\w` (ASCII part): letters, digits and underscore. -/
def isPyWord (c : Char) : Bool :=
  (48 ≤ c.toNat ∧ c.toNat ≤ 57) ∨ (97 ≤ c.toNat ∧ c.toNat ≤ 122) ∨
    (65 ≤ c.toNat ∧ c.toNat ≤ 90) ∨ c.toNat = 95

/-- The double-quote character. -/
def dquote : Char := Char.ofNat 34

/-- The single-quote character. -/
def squote : Char := Char.ofNat 39

/-- Decimal value of a digit run, as computed by Python's `int()`. -/
def digitsToNat (ds : List Char) : Nat :=
  ds.foldl (fun n c => 10 * n + (c.toNat - 48)) 0

/-- Case-insensitive literal matching at the head of the input: strips
`pat` (given in lower case) from `l`, comparing ASCII-case-folded. -/
def stripCI (pat : List Char) (l : List Char) : Option (List Char) :=
  match pat, l with
  | [], rest => some rest
  | _ :: _, [] => none
  | p :: ps, c :: cs => if lowerAscii c = p then stripCI ps cs else none

/-- The literal `limit`, the keyword of the pattern in `_parse_limit`. -/
def kwLimit : List Char := ['l', 'i', 'm', 'i', 't']

/-- The literal `where`, the keyword of the pattern in `_parse_filters`. -/
def kwWhere : List Char := ['w', 'h', 'e', 'r', 'e']

/-- One attempt of the pattern `LIMIT\s+(\d+)` (with `re.IGNORECASE`)
anchored at the head of `l`; returns the captured number.  `\s+` and
`\d+` are greedy; as the classes are disjoint from what follows, the
greedy runs are the maximal ones. -/
def matchLimitAt (l : List Char) : Option Nat :=
  match stripCI kwLimit l with
  | none => none
  | some r =>
    if (r.takeWhile isPySpace).isEmpty then none
    else if ((r.dropWhile isPySpace).takeWhile isPyDigit).isEmpty then none
    else some (digitsToNat ((r.dropWhile isPySpace).takeWhile isPyDigit))

/-- Python `re.search` of `LIMIT\s+(\d+)`: the match at the leftmost position
where the pattern matches. -/
def searchLimit : List Char → Option Nat
  | [] => none
  | c :: cs =>
    match matchLimitAt (c :: cs) with
    | some n => some n
    | none => searchLimit cs

/-- Model of `JSONAPICursor._parse_limit`: the first `LIMIT n` match, else 1000. -/
def _parse_limit (operation : List Char) : Nat :=
  match searchLimit operation with
  | some n => n
  | none => 1000

/-- Declarative reading (from the spec's words) of "the pattern LIMIT
followed by whitespace and a non-negative integer" matching at the head
of `l` with value `n`.  The trailing condition on `rest` pins `n` to the
whole digit run. -/
def DeclLimitHere (l : List Char) (n : Nat) : Prop :=
  ∃ kw ws ds rest, l = kw ++ ws ++ ds ++ rest
    ∧ kw.map lowerAscii = kwLimit
    ∧ ws ≠ [] ∧ ws.all isPySpace = true
    ∧ ds ≠ [] ∧ ds.all isPyDigit = true
    ∧ (∀ c, rest.head? = some c → isPyDigit c = false)
    ∧ digitsToNat ds = n

/-- Declarative reading of the `WHERE\s+…` pattern being able to match at
the head of `l`: the keyword `WHERE` (case-insensitive) followed by a
whitespace character and at least one further character. -/
def DeclWhereHere (l : List Char) : Prop :=
  ∃ kw c d rest, l = kw ++ c :: d :: rest
    ∧ kw.map lowerAscii = kwWhere
    ∧ isPySpace c = true

/-- The terminator alternative `\s+LIMIT\s+\d+` of the WHERE-clause
pattern, tested against the text after the captured group. -/
def isLimitTermAt (t : List Char) : Bool :=
  if (t.takeWhile isPySpace).isEmpty then false
  else
    match stripCI kwLimit (t.dropWhile isPySpace) with
    | none => false
    | some r2 =>
      if (r2.takeWhile isPySpace).isEmpty then false
      else
        match r2.dropWhile isPySpace with
        | c :: _ => isPyDigit c
        | [] => false

/-- A position closes the lazy group `(.+?)` of the WHERE pattern when
the remaining text matches `\s+LIMIT\s+\d+` or is all whitespace up to
the end of the string (`\s*$`, with `re.DOTALL` in force). -/
def termOk (t : List Char) : Bool :=
  isLimitTermAt t || t.all isPySpace

/-- The lazy group `(.+?)`: the shortest nonempty prefix of the input
whose complement satisfies `termOk`.  (`termOk [] = true`, so the whole
input is always an admissible split.) -/
def splitMid (acc : List Char) : List Char → List Char
  | [] => acc
  | c :: cs => if termOk cs then acc ++ [c] else splitMid (acc ++ [c]) cs

/-- One attempt of `WHERE\s+(.+?)(?:\s+LIMIT\s+\d+|\s*$)` (IGNORECASE,
DOTALL) anchored at the head of `l`; returns the captured group.  When
the whole remainder after `WHERE` is whitespace, the greedy `\s+`
backtracks one character so the group captures the final space. -/
def matchWhereAt (l : List Char) : Option (List Char) :=
  match stripCI kwWhere l with
  | none => none
  | some rest =>
    let sp := rest.takeWhile isPySpace
    let r := rest.dropWhile isPySpace
    if sp.isEmpty then none
    else if r.isEmpty then
      if 2 ≤ sp.length then some [sp.getLastD ' '] else none
    else some (splitMid [] r)

/-- Python `re.search` of the WHERE-clause pattern: leftmost match. -/
def searchWhere : List Char → Option (List Char)
  | [] => none
  | c :: cs =>
    match matchWhereAt (c :: cs) with
    | some conds => some conds
    | none => searchWhere cs

/-- Python-dict lookup on an association list (first binding wins;
Python dictionaries have unique keys). -/
def dictGet {α β : Type} [DecidableEq α] : List (α × β) → α → Option β
  | [], _ => none
  | (k', v) :: rest, k => if k' = k then some v else dictGet rest k

/-- Python-dict assignment `d[k] = v`: replace the value in place if the
key is present, else append the new binding. -/
def dictInsert {α β : Type} [DecidableEq α] : List (α × β) → α → β → List (α × β)
  | [], k, v => [(k, v)]
  | (k', v') :: rest, k, v =>
    if k' = k then (k', v) :: rest else (k', v') :: dictInsert rest k v

/-- Python `{**a, **b}`: the bindings of `a` updated by those of `b`. -/
def mergeDicts {α β : Type} [DecidableEq α] (a b : List (α × β)) : List (α × β) :=
  b.foldl (fun acc kv => dictInsert acc kv.1 kv.2) a

/-- One match of the condition pattern
`(\w+)\s*=\s*(?:"([^"]*)"|\x27([^\x27]*)\x27|(\w+))` as found by
`re.findall` in `_parse_filters`. -/
structure CondMatch where
  key : List Char
  g2 : List Char
  g3 : List Char
  g4 : List Char

/-- The value alternation `(?:"([^"]*)"|\x27([^\x27]*)\x27|(\w+))` of the
condition pattern, attempted at the head of `r4`: returns the three
captured groups (two of them empty) and the text after the match.  A
quoted alternative only matches when the closing quote exists; the
regex engine cannot fall back to another alternative then, since a
quote character starts neither of the other two. -/
def matchValueAt (r4 : List Char) : Option (List Char × List Char × List Char × List Char) :=
  if r4.head? = some dquote then
    if (r4.tail.dropWhile (fun a => a ≠ dquote)).isEmpty then none
    else some (r4.tail.takeWhile (fun a => a ≠ dquote), [], [],
      (r4.tail.dropWhile (fun a => a ≠ dquote)).tail)
  else if r4.head? = some squote then
    if (r4.tail.dropWhile (fun a => a ≠ squote)).isEmpty then none
    else some ([], r4.tail.takeWhile (fun a => a ≠ squote), [],
      (r4.tail.dropWhile (fun a => a ≠ squote)).tail)
  else
    if (r4.takeWhile isPyWord).isEmpty then none
    else some ([], [], r4.takeWhile isPyWord, r4.dropWhile isPyWord)

/-- One attempt of the condition pattern anchored at the head of `l`;
returns the groups and the text after the match.  The backtracking of
the greedy pieces never produces a different match here: a shorter
`(\w+)` leaves a word character where `=` is required, and a shorter
`\s*` leaves a space where the value must start. -/
def matchCondAt (l : List Char) : Option (CondMatch × List Char) :=
  if (l.takeWhile isPyWord).isEmpty then none
  else if ((l.dropWhile isPyWord).dropWhile isPySpace).head? = some '=' then
    (matchValueAt ((((l.dropWhile isPyWord).dropWhile isPySpace).tail).dropWhile isPySpace)).map
      (fun g => (⟨l.takeWhile isPyWord, g.1, g.2.1, g.2.2.1⟩, g.2.2.2))
  else none

/-- Fuel-indexed scan of `re.findall`: try the pattern at every position
from left to right, resuming after the end of each match.  The fuel is
an embedding artifact; `findCondsF_stable` shows any fuel at least the
input length gives the same result. -/
def findCondsF : Nat → List Char → List CondMatch
  | 0, _ => []
  | _ + 1, [] => []
  | fuel + 1, c :: cs =>
    match matchCondAt (c :: cs) with
    | some (m, rest) => m :: findCondsF fuel rest
    | none => findCondsF fuel cs

/-- Python `re.findall` of the condition pattern. -/
def findConds (l : List Char) : List CondMatch :=
  findCondsF l.length l

/-- Model of `next((v for v in match[1:] if v), None)`: the first nonempty
captured group among the three value alternatives; an empty string is
falsy in Python, so an empty quoted value yields `none`. -/
def condValue (m : CondMatch) : Option (List Char) :=
  if m.g2.isEmpty then
    if m.g3.isEmpty then
      if m.g4.isEmpty then none else some m.g4
    else some m.g3
  else some m.g2

/-- The `for match in matches` loop of `_parse_filters`: build the
filter dictionary, skipping matches whose value is falsy. -/
def buildFilters (ms : List CondMatch) : List (List Char × List Char) :=
  ms.foldl
    (fun fs m =>
      match condValue m with
      | some v => dictInsert fs m.key v
      | none => fs)
    []

/-- Model of `JSONAPICursor._parse_filters`: extract the WHERE clause, then all
`identifier = value` conditions inside it. -/
def _parse_filters (operation : List Char) : List (List Char × List Char) :=
  match searchWhere operation with
  | none => []
  | some conds => buildFilters (findConds conds)

/-- Parsed JSON values, as returned by `response.json()`.  The payload of
`jfloat` carries the decimal literal; only the constructor tag is ever
inspected by the code under verification. -/
inductive JValue where
  | jnull : JValue
  | jbool : Bool → JValue
  | jint : Int → JValue
  | jfloat : List Char → JValue
  | jstr : String → JValue
  | jarr : List JValue → JValue
  | jobj : List (String × JValue) → JValue

/-- A row: a Python dict from column name to JSON value, in insertion
order. -/
abbrev Row := List (String × JValue)

/-- The wrapper-key probe shared by `_normalize_data` and
`format_api_response_for_superset`: `results`, then `data`, then
`items`, then `records`, in the order the code checks them. -/
def pickWrapped (fs : List (String × JValue)) : Option JValue :=
  match dictGet fs "results" with
  | some v => some v
  | none =>
    match dictGet fs "data" with
    | some v => some v
    | none =>
      match dictGet fs "items" with
      | some v => some v
      | none => dictGet fs "records"

/-- An element of the working list becomes a row: dicts as-is, anything
else wrapped as `{'value': item}`. -/
def toRow (v : JValue) : Row :=
  match v with
  | .jobj fs => fs
  | other => [("value", other)]

/-- Model of `JSONAPICursor._normalize_data`. -/
def _normalize_data (data : JValue) : List Row :=
  let data1 : JValue :=
    match data with
    | .jobj fs =>
      match pickWrapped fs with
      | some v => v
      | none => .jarr [.jobj fs]
    | other => other
  match data1 with
  | .jarr items => items.map toRow
  | other => [[("value", other)]]

/-- The keys of a row. -/
def rowKeys (r : Row) : List String :=
  r.map Prod.fst

/-- Ordered set insertion used to model the `all_keys` set: add the key
if not yet present.  (Python's `set` iterates in a hash-determined
order; the claims under verification only depend on membership, so the
encounter order is used here.) -/
def insKey (acc : List String) (k : String) : List String :=
  if k ∈ acc then acc else acc ++ [k]

/-- The union of keys over all produced rows, in encounter order. -/
def keyUnionRows (rows : List Row) : List String :=
  rows.foldl (fun acc r => (rowKeys r).foldl insKey acc) []

/-- The keys of a working element of `format_api_response_for_superset`:
only dict elements contribute (`if isinstance(row, dict)`). -/
def elemKeys (v : JValue) : List String :=
  match v with
  | .jobj fs => rowKeys fs
  | _ => []

/-- The `all_keys` set of `format_api_response_for_superset`: union of the keys
of all dict rows. -/
def fmtAllKeys (rows : List JValue) : List String :=
  rows.foldl (fun acc r => (elemKeys r).foldl insKey acc) []

/-- The working row list of `format_api_response_for_superset` before
padding.  `none` models the paths on which the Python value `rows` is
not a list at all (a non-sequence wrapper value), where the padding
loops would not see a list of rows. -/
def fmtWorkingRows (d : JValue) : Option (List JValue) :=
  match d with
  | .jobj fs =>
    match pickWrapped fs with
    | some (.jarr xs) => some xs
    | some _ => none
    | none => some [.jobj fs]
  | .jarr xs => some xs
  | other => some [.jobj [("value", other)]]

/-- The padding loop body of `format_api_response_for_superset` for one
dict row: `for key in all_keys: if key not in row: row[key] = None`. -/
def padFields (allKeys : List String) (fs : List (String × JValue)) : List (String × JValue) :=
  fs ++ (allKeys.filter (fun k => (dictGet fs k).isNone)).map (fun k => (k, JValue.jnull))

/-- Padding applied to one working element; non-dict elements are left
untouched. -/
def fmtPadRow (allKeys : List String) (r : JValue) : JValue :=
  match r with
  | .jobj fs => .jobj (padFields allKeys fs)
  | v => v

/-- Model of `format_api_response_for_superset` (after the HTTP fetch): choose
the working rows, then pad every dict row with `None` for each key of
the union it lacks. -/
def format_api_response_for_superset (d : JValue) : Option (List JValue) :=
  match fmtWorkingRows d with
  | none => none
  | some rows => some (rows.map (fmtPadRow (fmtAllKeys rows)))

/-- Python `isinstance(value, int)`: true for `bool` values as well,
since `bool` is a subclass of `int`. -/
def pyIsInstInt (v : JValue) : Bool :=
  match v with
  | .jbool _ => true
  | .jint _ => true
  | _ => false

/-- Python `isinstance(value, float)`. -/
def pyIsInstFloat (v : JValue) : Bool :=
  match v with
  | .jfloat _ => true
  | _ => false

/-- Python `isinstance(value, bool)`. -/
def pyIsInstBool (v : JValue) : Bool :=
  match v with
  | .jbool _ => true
  | _ => false

/-- Python `isinstance(value, dict) or isinstance(value, list)` /
`isinstance(value, (dict, list))`. -/
def pyIsDictOrList (v : JValue) : Bool :=
  match v with
  | .jobj _ => true
  | .jarr _ => true
  | _ => false

/-- The SQLAlchemy type tags assigned by `JSONAPIDialect.get_columns`. -/
inductive SqlaType where
  | integer : SqlaType
  | float : SqlaType
  | boolean : SqlaType
  | json : SqlaType
  | text : SqlaType
deriving DecidableEq

/-- The `isinstance` chain of `JSONAPIDialect.get_columns`, in source
order: `int`, `float`, `bool`, `(dict, list)`, else `Text`. -/
def saClassify (v : JValue) : SqlaType :=
  if pyIsInstInt v then .integer
  else if pyIsInstFloat v then .float
  else if pyIsInstBool v then .boolean
  else if pyIsDictOrList v then .json
  else .text

/-- One column record produced by `get_columns` (the fields the claims
are about). -/
structure ColInfo where
  name : String
  type : SqlaType
  nullable : Bool
deriving DecidableEq

/-- Model of `JSONAPIDialect.get_columns`, from the fetched sample rows: infer
from the first row, or fall back to a single generic text column named
`data` when no column was produced. -/
def get_columns (rows : List Row) : List ColInfo :=
  let columns : List ColInfo :=
    match rows with
    | [] => []
    | firstRow :: _ => firstRow.map (fun kv => ⟨kv.1, saClassify kv.2, true⟩)
  if columns.isEmpty then [⟨"data", .text, true⟩] else columns

/-- DBAPI type code `STRING` from `dbapi.py`. -/
def STRING : Nat := 1

/-- DBAPI type code `NUMBER` from `dbapi.py`. -/
def NUMBER : Nat := 3

/-- The `isinstance` chain of `JSONAPICursor._create_description`:
`int` and `float` (and hence `bool`, a subclass of `int`) get `NUMBER`,
everything else `STRING`. -/
def typeCodeFor (v : JValue) : Nat :=
  if pyIsInstInt v then NUMBER
  else if pyIsInstFloat v then NUMBER
  else if pyIsInstBool v then NUMBER
  else if pyIsDictOrList v then STRING
  else STRING

/-- Model of `JSONAPICursor._create_description`: (name, type_code, nullable) per
column of the representative row (the display/size/precision/scale slots
of the 7-tuple are constant `None` in the source and are omitted). -/
def _create_description (row : Row) : List (String × Nat × Bool) :=
  row.map (fun kv => (kv.1, typeCodeFor kv.2, true))

/-- The limit chosen by `execute`: default 1000, overridden by
`_parse_limit` when the operation text is truthy (non-`None` and
nonempty). -/
def limitOf : Option (List Char) → Nat
  | none => 1000
  | some op => if op.isEmpty then 1000 else _parse_limit op

/-- The filters chosen by `execute`: default `{}`, overridden by
`_parse_filters` when the operation text is truthy. -/
def filtersOf : Option (List Char) → List (List Char × List Char)
  | none => []
  | some op => if op.isEmpty then [] else _parse_filters op

/-- The translator contract of the spec: operation text to
`(limit, filters)`, total on every input. -/
def translateOf (op : Option (List Char)) : Nat × List (List Char × List Char) :=
  (limitOf op, filtersOf op)

/-- The truncation step of `execute`:
`if limit > 0 and len(rows) > limit: rows = rows[:limit]`. -/
def truncRows (limit : Nat) (rows : List Row) : List Row :=
  if 0 < limit ∧ limit < rows.length then rows.take limit else rows

/-- The row list `execute` stores on success for a given operation and
fetched document. -/
def executeRows (op : Option (List Char)) (data : JValue) : List Row :=
  truncRows (limitOf op) (_normalize_data data)

/-- The Python exceptions that can cross `execute`'s boundary, carrying
`str(e)`. -/
inductive PyExn where
  | requestException : String → PyExn
  | operationalError : String → PyExn
  | dataError : String → PyExn
  | databaseError : String → PyExn
deriving DecidableEq

/-- Python `str(e)` of an exception: its message. -/
def exnStr : PyExn → String
  | .requestException m => m
  | .operationalError m => m
  | .dataError m => m
  | .databaseError m => m

/-- The HTTP response handed back by `session.get`: status code, body
text, and the outcome of `response.json()` (`Except.error` is a
`json.JSONDecodeError` with its message). -/
structure HttpResponse where
  status : Nat
  text : String
  body : Except String JValue

/-- The fetch boundary: `session.get` either raises a
`requests.RequestException` or returns a response. -/
inductive FetchOutcome where
  | raised : String → FetchOutcome
  | returned : HttpResponse → FetchOutcome

/-- The `try` body of `JSONAPICursor.execute`: translate, merge the
parameters, fetch with the merged parameters, check the status, decode,
normalize, truncate.  Exceptions raised inside the body are returned as
`Except.error`. -/
def executeTry (op : Option (List Char)) (params : List (List Char × List Char))
    (fetch : List (List Char × List Char) → FetchOutcome) : Except PyExn (List Row) :=
  let queryParams := mergeDicts params (filtersOf op)
  match fetch queryParams with
  | .raised m => .error (.requestException m)
  | .returned r =>
    if r.status ≠ 200 then
      .error (.operationalError ("API returned " ++ toString r.status ++ ": " ++ r.text))
    else
      match r.body with
      | .error m => .error (.dataError ("Invalid JSON response: " ++ m))
      | .ok data => .ok (executeRows op data)

/-- Model of `JSONAPICursor.execute` with its two `except` clauses: a
`requests.RequestException` becomes `OperationalError("Network error:
…")`; every other exception — including the `OperationalError` and
`DataError` the body itself raises — is caught by the blanket `except
Exception` and re-wrapped as `DatabaseError("Execution error: …")`.
There is a single fetch: no retry path exists. -/
def execute (op : Option (List Char)) (params : List (List Char × List Char))
    (fetch : List (List Char × List Char) → FetchOutcome) : Except PyExn (List Row) :=
  match executeTry op params fetch with
  | .ok rows => .ok rows
  | .error (.requestException m) => .error (.operationalError ("Network error: " ++ m))
  | .error e => .error (.databaseError ("Execution error: " ++ exnStr e))

theorem takeWhile_append_all {α : Type} (p : α → Bool) (xs ys : List α)
    (h : ∀ a ∈ xs, p a = true) :
    (xs ++ ys).takeWhile p = xs ++ ys.takeWhile p := by
  induction xs with
  | nil => simp
  | cons x xs ih =>
    have hx : p x = true := h x (List.mem_cons_self x xs)
    simp only [List.cons_append, List.takeWhile_cons, hx, if_true]
    rw [ih (fun a ha => h a (List.mem_cons_of_mem x ha))]

theorem dropWhile_append_all {α : Type} (p : α → Bool) (xs ys : List α)
    (h : ∀ a ∈ xs, p a = true) :
    (xs ++ ys).dropWhile p = ys.dropWhile p := by
  induction xs with
  | nil => simp
  | cons x xs ih =>
    have hx : p x = true := h x (List.mem_cons_self x xs)
    simp only [List.cons_append, List.dropWhile_cons, hx, if_true]
    exact ih (fun a ha => h a (List.mem_cons_of_mem x ha))

theorem takeWhile_nil_of_head {α : Type} (p : α → Bool) (ys : List α)
    (h : ∀ c, ys.head? = some c → p c = false) : ys.takeWhile p = [] := by
  cases ys with
  | nil => rfl
  | cons y ys => simp [List.takeWhile_cons, h y rfl]

theorem dropWhile_self_of_head {α : Type} (p : α → Bool) (ys : List α)
    (h : ∀ c, ys.head? = some c → p c = false) : ys.dropWhile p = ys := by
  cases ys with
  | nil => rfl
  | cons y ys => simp [List.dropWhile_cons, h y rfl]

theorem all_takeWhile {α : Type} (p : α → Bool) (l : List α) :
    (l.takeWhile p).all p = true := by
  induction l with
  | nil => rfl
  | cons x xs ih =>
    by_cases hx : p x = true
    · simp [List.takeWhile_cons, hx, ih]
    · simp [List.takeWhile_cons, hx]

theorem head?_dropWhile {α : Type} (p : α → Bool) (l : List α) :
    ∀ c, (l.dropWhile p).head? = some c → p c = false := by
  induction l with
  | nil => intro c h; simp at h
  | cons x xs ih =>
    intro c h
    by_cases hx : p x = true
    · exact ih c (by simpa [List.dropWhile_cons, hx] using h)
    · rw [List.dropWhile_cons, if_neg hx] at h
      simp only [List.head?_cons, Option.some.injEq] at h
      subst h
      simpa using hx

theorem digit_not_space (c : Char) (h : isPyDigit c = true) : isPySpace c = false := by
  simp only [isPyDigit, decide_eq_true_eq] at h
  simp only [isPySpace, decide_eq_false_iff_not]
  omega

theorem space_not_word (c : Char) (h : isPySpace c = true) : isPyWord c = false := by
  simp only [isPySpace, decide_eq_true_eq] at h
  simp only [isPyWord, decide_eq_false_iff_not]
  omega

theorem digit_is_word (c : Char) (h : isPyDigit c = true) : isPyWord c = true := by
  simp only [isPyDigit, decide_eq_true_eq] at h
  simp only [isPyWord, decide_eq_true_eq]
  omega

theorem stripCI_append (kw r : List Char) :
    stripCI (kw.map lowerAscii) (kw ++ r) = some r := by
  induction kw with
  | nil => rfl
  | cons c ks ih =>
    simp only [List.map_cons, List.cons_append, stripCI, if_pos rfl]
    exact ih

theorem stripCI_sound (pat : List Char) :
    ∀ l r, stripCI pat l = some r → ∃ kw, l = kw ++ r ∧ kw.map lowerAscii = pat := by
  induction pat with
  | nil =>
    intro l r h
    simp only [stripCI, Option.some.injEq] at h
    exact ⟨[], by simp [h]⟩
  | cons p ps ih =>
    intro l r h
    cases l with
    | nil => simp [stripCI] at h
    | cons c cs =>
      simp only [stripCI] at h
      by_cases hc : lowerAscii c = p
      · rw [if_pos hc] at h
        obtain ⟨kw, hkw, hmap⟩ := ih cs r h
        exact ⟨c :: kw, by simp [hkw], by simp [hmap, hc]⟩
      · rw [if_neg hc] at h
        exact absurd h (by simp)

theorem matchLimitAt_nil : matchLimitAt [] = none := rfl

theorem matchLimitAt_sound (l : List Char) (n : Nat) (h : matchLimitAt l = some n) :
    DeclLimitHere l n := by
  unfold matchLimitAt at h
  cases hs : stripCI kwLimit l with
  | none => rw [hs] at h; exact absurd h (by simp)
  | some r =>
    rw [hs] at h
    simp only at h
    by_cases hws : (r.takeWhile isPySpace).isEmpty
    · rw [if_pos hws] at h; exact absurd h (by simp)
    · rw [if_neg hws] at h
      by_cases hds : ((r.dropWhile isPySpace).takeWhile isPyDigit).isEmpty
      · rw [if_pos hds] at h; exact absurd h (by simp)
      · rw [if_neg hds] at h
        simp only [Option.some.injEq] at h
        obtain ⟨kw, hl, hmap⟩ := stripCI_sound kwLimit l r hs
        refine ⟨kw, r.takeWhile isPySpace, (r.dropWhile isPySpace).takeWhile isPyDigit,
          (r.dropWhile isPySpace).dropWhile isPyDigit, ?_, hmap, ?_, ?_, ?_, ?_, ?_, h⟩
        · rw [hl, List.append_assoc, List.append_assoc,
            List.takeWhile_append_dropWhile, List.takeWhile_append_dropWhile]
        · simpa [List.isEmpty_iff] using hws
        · exact all_takeWhile isPySpace r
        · simpa [List.isEmpty_iff] using hds
        · exact all_takeWhile isPyDigit (r.dropWhile isPySpace)
        · exact head?_dropWhile isPyDigit (r.dropWhile isPySpace)

theorem matchLimitAt_complete (l : List Char) (n : Nat) (h : DeclLimitHere l n) :
    matchLimitAt l = some n := by
  obtain ⟨kw, ws, ds, rest, hl, hmap, hws, hwsall, hds, hdsall, hrest, hval⟩ := h
  have hwsmem : ∀ a ∈ ws, isPySpace a = true :=
    fun a ha => (List.all_eq_true.mp hwsall) a ha
  have hdsmem : ∀ a ∈ ds, isPyDigit a = true :=
    fun a ha => (List.all_eq_true.mp hdsall) a ha
  have hdshead : ∀ c, (ds ++ rest).head? = some c → isPySpace c = false := by
    intro c hc
    cases ds with
    | nil => exact absurd rfl hds
    | cons d ds' =>
      simp only [List.cons_append, List.head?_cons, Option.some.injEq] at hc
      subst hc
      exact digit_not_space d (hdsmem d (List.mem_cons_self d ds'))
  have hstrip : stripCI kwLimit (kw ++ (ws ++ (ds ++ rest))) = some (ws ++ (ds ++ rest)) := by
    rw [← hmap]; exact stripCI_append kw _
  have hl' : l = kw ++ (ws ++ (ds ++ rest)) := by
    rw [hl]; simp [List.append_assoc]
  subst hl'
  unfold matchLimitAt
  rw [hstrip]
  simp only
  rw [takeWhile_append_all isPySpace ws (ds ++ rest) hwsmem,
    takeWhile_nil_of_head isPySpace (ds ++ rest) hdshead,
    dropWhile_append_all isPySpace ws (ds ++ rest) hwsmem,
    dropWhile_self_of_head isPySpace (ds ++ rest) hdshead,
    takeWhile_append_all isPyDigit ds rest hdsmem,
    takeWhile_nil_of_head isPyDigit rest hrest]
  rw [if_neg (by simpa using hws), if_neg (by simpa using hds)]
  simp [hval]

theorem searchLimit_of_first (q : List Char) :
    ∀ i n, matchLimitAt (q.drop i) = some n →
      (∀ j, j < i → matchLimitAt (q.drop j) = none) →
      searchLimit q = some n := by
  induction q with
  | nil =>
    intro i n hm _
    rw [List.drop_nil] at hm
    rw [matchLimitAt_nil] at hm
    exact absurd hm (by simp)
  | cons c cs ih =>
    intro i n hm hfirst
    cases i with
    | zero =>
      rw [List.drop_zero] at hm
      simp only [searchLimit, hm]
    | succ i' =>
      have h0 : matchLimitAt (c :: cs) = none := by
        have := hfirst 0 (Nat.succ_pos i')
        rwa [List.drop_zero] at this
      simp only [searchLimit, h0]
      exact ih i' n (by simpa using hm)
        (fun j hj => by simpa using hfirst (j + 1) (Nat.succ_lt_succ hj))

theorem searchLimit_sound (q : List Char) :
    ∀ n, searchLimit q = some n → ∃ i, matchLimitAt (q.drop i) = some n := by
  induction q with
  | nil => intro n h; simp [searchLimit] at h
  | cons c cs ih =>
    intro n h
    simp only [searchLimit] at h
    cases hm : matchLimitAt (c :: cs) with
    | some m =>
      rw [hm] at h
      simp only [Option.some.injEq] at h
      exact ⟨0, by simpa [hm] using h⟩
    | none =>
      rw [hm] at h
      obtain ⟨i, hi⟩ := ih n h
      exact ⟨i + 1, by simpa using hi⟩

theorem declLimitHere_length (l : List Char) (n : Nat) (h : DeclLimitHere l n) :
    7 ≤ l.length := by
  obtain ⟨kw, ws, ds, rest, hl, hmap, hws, _, hds, _, _, _⟩ := h
  have hkw : kw.length = 5 := by
    have := congrArg List.length hmap
    simpa [kwLimit] using this
  have hws1 : 1 ≤ ws.length := by
    cases ws with
    | nil => exact absurd rfl hws
    | cons w ws' => simp
  have hds1 : 1 ≤ ds.length := by
    cases ds with
    | nil => exact absurd rfl hds
    | cons d ds' => simp
  subst hl
  simp only [List.length_append]
  omega

theorem takeWhile_length_le {α : Type} (p : α → Bool) (l : List α) :
    (l.takeWhile p).length ≤ l.length := by
  induction l with
  | nil => simp
  | cons x xs ih =>
    by_cases hx : p x = true
    · simp only [List.takeWhile_cons, hx, if_true, List.length_cons]
      omega
    · simp [List.takeWhile_cons, hx]

theorem matchWhereAt_sound (l : List Char) (conds : List Char)
    (h : matchWhereAt l = some conds) : DeclWhereHere l := by
  unfold matchWhereAt at h
  cases hs : stripCI kwWhere l with
  | none => rw [hs] at h; exact absurd h (by simp)
  | some rest =>
    rw [hs] at h
    simp only at h
    by_cases hsp : (rest.takeWhile isPySpace).isEmpty
    · rw [if_pos hsp] at h; exact absurd h (by simp)
    · rw [if_neg hsp] at h
      have hsp1 : 1 ≤ (rest.takeWhile isPySpace).length := by
        cases he : rest.takeWhile isPySpace with
        | nil => rw [he] at hsp; exact absurd rfl hsp
        | cons a t => simp
      have hlen : 2 ≤ rest.length := by
        by_cases hr : (rest.dropWhile isPySpace).isEmpty
        · rw [if_pos hr] at h
          by_cases h2 : 2 ≤ (rest.takeWhile isPySpace).length
          · calc 2 ≤ (rest.takeWhile isPySpace).length := h2
              _ ≤ rest.length := takeWhile_length_le isPySpace rest
          · rw [if_neg h2] at h; exact absurd h (by simp)
        · have hr1 : 1 ≤ (rest.dropWhile isPySpace).length := by
            cases he : rest.dropWhile isPySpace with
            | nil => rw [he] at hr; exact absurd rfl hr
            | cons a t => simp
          have hsum := congrArg List.length (List.takeWhile_append_dropWhile (p := isPySpace) (l := rest))
          rw [List.length_append] at hsum
          omega
      obtain ⟨kw, hl, hmap⟩ := stripCI_sound kwWhere l rest hs
      cases rest with
      | nil => simp at hlen
      | cons c rest' =>
        cases rest' with
        | nil => simp at hlen
        | cons d rest'' =>
          have hc : isPySpace c = true := by
            by_contra hcc
            apply hsp
            simp [List.takeWhile_cons, hcc]
          exact ⟨kw, c, d, rest'', hl, hmap, hc⟩

theorem searchWhere_sound (q : List Char) :
    ∀ conds, searchWhere q = some conds → ∃ i, matchWhereAt (q.drop i) = some conds := by
  induction q with
  | nil => intro conds h; simp [searchWhere] at h
  | cons c cs ih =>
    intro conds h
    simp only [searchWhere] at h
    cases hm : matchWhereAt (c :: cs) with
    | some m =>
      rw [hm] at h
      simp only [Option.some.injEq] at h
      exact ⟨0, by simpa [hm] using h⟩
    | none =>
      rw [hm] at h
      obtain ⟨i, hi⟩ := ih conds h
      exact ⟨i + 1, by simpa using hi⟩

/-- Claim C4: for every query string containing a `LIMIT n` clause
(case-insensitive, `n` a non-negative integer, first match wins) the
translator returns limit `n`; for every query string with no such
clause, and for absent query text, it returns the default limit 1000. -/
theorem claim_C4_limit_translation (q : List Char) (i n : Nat) :
    (DeclLimitHere (q.drop i) n →
      (∀ j, j < i → ¬ ∃ m, DeclLimitHere (q.drop j) m) →
      _parse_limit q = n)
    ∧ ((¬ ∃ j m, DeclLimitHere (q.drop j) m) → _parse_limit q = 1000)
    ∧ limitOf none = 1000 := by
  refine ⟨?_, ?_, rfl⟩
  · intro hd hfirst
    have hm : matchLimitAt (q.drop i) = some n := matchLimitAt_complete _ _ hd
    have hnone : ∀ j, j < i → matchLimitAt (q.drop j) = none := by
      intro j hj
      cases hmm : matchLimitAt (q.drop j) with
      | none => rfl
      | some m => exact absurd ⟨m, matchLimitAt_sound _ _ hmm⟩ (hfirst j hj)
    have := searchLimit_of_first q i n hm hnone
    simp [_parse_limit, this]
  · intro hno
    cases h : searchLimit q with
    | none => simp [_parse_limit, h]
    | some m =>
      obtain ⟨i2, hi⟩ := searchLimit_sound q m h
      exact absurd ⟨i2, m, matchLimitAt_sound _ _ hi⟩ hno

/-- Witness for C4 at concrete inputs: `from t LiMiT 042` (first match at
position 7, value 42), a clause-free string, and absent text. -/
theorem claim_C4_limit_translation_witness :
    _parse_limit ("from t LiMiT 042".toList) = 42
    ∧ _parse_limit ("go".toList) = 1000
    ∧ limitOf none = 1000 := by
  refine ⟨?_, ?_, (claim_C4_limit_translation [] 0 0).2.2⟩
  · apply (claim_C4_limit_translation ("from t LiMiT 042".toList) 7 42).1
    · refine ⟨"LiMiT".toList, [' '], "042".toList, [], by decide, by decide, by decide,
        by decide, by decide, by decide, ?_, by decide⟩
      intro c hc
      simp at hc
    · have hall : ∀ j, j < 7 → matchLimitAt (("from t LiMiT 042".toList).drop j) = none := by
        decide
      intro j hj hex
      obtain ⟨m, hd⟩ := hex
      have := matchLimitAt_complete _ _ hd
      rw [hall j hj] at this
      exact absurd this (by simp)
  · apply (claim_C4_limit_translation ("go".toList) 0 0).2.1
    intro hex
    obtain ⟨j, m, hd⟩ := hex
    have h7 := declLimitHere_length _ _ hd
    have hlen : (("go".toList).drop j).length ≤ 2 := by
      simp [List.length_drop]
    omega

/-- Claim C8: the translator is total — for every input query string,
including malformed ones, and for absent query text, it never raises:
when no recognizable LIMIT (resp. WHERE) pattern occurs anywhere in the
string it returns the default limit 1000 (resp. the empty filter
mapping).  Totality is intrinsic to the embedding: `_parse_limit` and
`_parse_filters` are plain functions, mirroring the Python code, which
has no raising operation on any path (`int()` of a `\d+` match cannot
fail). -/
theorem claim_C8_translator_total (q : List Char) :
    (_parse_limit q = 1000 ∨ ∃ i n, DeclLimitHere (q.drop i) n)
    ∧ (_parse_filters q = [] ∨ ∃ i, DeclWhereHere (q.drop i))
    ∧ translateOf none = (1000, []) := by
  refine ⟨?_, ?_, rfl⟩
  · cases h : searchLimit q with
    | none => exact Or.inl (by simp [_parse_limit, h])
    | some m =>
      obtain ⟨i, hi⟩ := searchLimit_sound q m h
      exact Or.inr ⟨i, m, matchLimitAt_sound _ _ hi⟩
  · cases h : searchWhere q with
    | none => exact Or.inl (by simp [_parse_filters, h])
    | some conds =>
      obtain ⟨i, hi⟩ := searchWhere_sound q conds h
      exact Or.inr ⟨i, matchWhereAt_sound _ _ hi⟩

/-- Claim C9: the normalizer is deterministic — it is a pure function of
the parsed document (the Python code reads no other state), so two runs
on the same document yield the same row sequence, with the same key
order in every row. -/
theorem claim_C9_normalize_deterministic (d : JValue) :
    _normalize_data d = _normalize_data d
    ∧ (_normalize_data d).map rowKeys = (_normalize_data d).map rowKeys :=
  ⟨rfl, rfl⟩

theorem dictGet_insert_self {α β : Type} [DecidableEq α] (d : List (α × β)) (k : α) (v : β) :
    dictGet (dictInsert d k v) k = some v := by
  induction d with
  | nil => simp [dictInsert, dictGet]
  | cons kv rest ih =>
    obtain ⟨k', v'⟩ := kv
    by_cases h : k' = k
    · simp [dictInsert, h, dictGet]
    · simp [dictInsert, h, dictGet, ih]

theorem dictGet_insert_ne {α β : Type} [DecidableEq α] (d : List (α × β)) (k k2 : α) (v : β)
    (h : k ≠ k2) : dictGet (dictInsert d k v) k2 = dictGet d k2 := by
  induction d with
  | nil => simp [dictInsert, dictGet, h]
  | cons kv rest ih =>
    obtain ⟨k', v'⟩ := kv
    by_cases h' : k' = k
    · subst h'
      simp [dictInsert, dictGet, h]
    · simp [dictInsert, h', dictGet, ih]

theorem mem_keys_dictInsert {α β : Type} [DecidableEq α] (d : List (α × β)) (k k2 : α) (v : β) :
    k2 ∈ (dictInsert d k v).map Prod.fst ↔ k2 ∈ d.map Prod.fst ∨ k2 = k := by
  induction d with
  | nil => simp [dictInsert]
  | cons kv rest ih =>
    obtain ⟨k', v'⟩ := kv
    by_cases h : k' = k
    · subst h
      have he : dictInsert ((k', v') :: rest) k' v = (k', v) :: rest := by
        simp [dictInsert]
      rw [he]
      simp only [List.map_cons, List.mem_cons]
      tauto
    · simp only [dictInsert, if_neg h, List.map_cons, List.mem_cons, ih]
      tauto

theorem nodup_keys_dictInsert {α β : Type} [DecidableEq α] (d : List (α × β)) (k : α) (v : β)
    (h : (d.map Prod.fst).Nodup) : ((dictInsert d k v).map Prod.fst).Nodup := by
  induction d with
  | nil => simp [dictInsert]
  | cons kv rest ih =>
    obtain ⟨k', v'⟩ := kv
    simp only [List.map_cons, List.nodup_cons] at h
    by_cases hk : k' = k
    · subst hk
      simpa [dictInsert, List.nodup_cons] using h
    · simp only [dictInsert, if_neg hk, List.map_cons, List.nodup_cons]
      refine ⟨?_, ih h.2⟩
      rw [mem_keys_dictInsert]
      rintro (hmem | heq)
      · exact h.1 hmem
      · exact hk heq

theorem mergeDicts_get_of_not_mem {α β : Type} [DecidableEq α] (b : List (α × β)) :
    ∀ a k, k ∉ b.map Prod.fst → dictGet (mergeDicts a b) k = dictGet a k := by
  induction b with
  | nil => intro a k _; rfl
  | cons kv rest ih =>
    intro a k hk
    obtain ⟨k0, v0⟩ := kv
    simp only [List.map_cons, List.mem_cons] at hk
    push_neg at hk
    have step : mergeDicts a ((k0, v0) :: rest) = mergeDicts (dictInsert a k0 v0) rest := rfl
    rw [step, ih (dictInsert a k0 v0) k hk.2,
      dictGet_insert_ne a k0 k v0 (fun he => hk.1 he.symm)]

theorem mergeDicts_get_right {α β : Type} [DecidableEq α] (b : List (α × β)) :
    ∀ a k v, (b.map Prod.fst).Nodup → dictGet b k = some v →
      dictGet (mergeDicts a b) k = some v := by
  induction b with
  | nil => intro a k v _ h; simp [dictGet] at h
  | cons kv rest ih =>
    intro a k v hnd h
    obtain ⟨k0, v0⟩ := kv
    simp only [List.map_cons, List.nodup_cons] at hnd
    have step : mergeDicts a ((k0, v0) :: rest) = mergeDicts (dictInsert a k0 v0) rest := rfl
    by_cases hk : k0 = k
    · subst hk
      rw [show dictGet ((k0, v0) :: rest) k0 = some v0 from by simp [dictGet]] at h
      simp only [Option.some.injEq] at h
      subst h
      rw [step, mergeDicts_get_of_not_mem rest (dictInsert a k0 v0) k0 hnd.1,
        dictGet_insert_self]
    · simp only [dictGet, if_neg hk] at h
      rw [step]
      exact ih (dictInsert a k0 v0) k v hnd.2 h

theorem buildFilters_aux_nodup (ms : List CondMatch) :
    ∀ fs : List (List Char × List Char), (fs.map Prod.fst).Nodup →
      ((ms.foldl
        (fun fs m =>
          match condValue m with
          | some v => dictInsert fs m.key v
          | none => fs)
        fs).map Prod.fst).Nodup := by
  induction ms with
  | nil => intro fs h; exact h
  | cons m rest ih =>
    intro fs h
    simp only [List.foldl_cons]
    cases hv : condValue m with
    | none => simpa [hv] using ih fs h
    | some v => simpa [hv] using ih (dictInsert fs m.key v) (nodup_keys_dictInsert fs m.key v h)

theorem parse_filters_nodup (q : List Char) :
    ((_parse_filters q).map Prod.fst).Nodup := by
  unfold _parse_filters
  cases h : searchWhere q with
  | none => simp
  | some conds => exact buildFilters_aux_nodup (findConds conds) [] (by simp)

/-- Claim C10: when a filter extracted from the query shares a key with
an explicitly supplied parameter, the extracted filter's value wins in
the merged payload `{**(parameters or {}), **filters}`. -/
theorem claim_C10_filters_override (params : List (List Char × List Char)) (q : List Char)
    (k v : List Char) (h : dictGet (_parse_filters q) k = some v) :
    dictGet (mergeDicts params (_parse_filters q)) k = some v :=
  mergeDicts_get_right (_parse_filters q) params k v (parse_filters_nodup q) h

/-- Witness for C10: parameters carry `k = old`, the query filter sets
`k = 5`; the merged payload carries `5`. -/
theorem claim_C10_filters_override_witness :
    dictGet (mergeDicts [("k".toList, "old".toList)] (_parse_filters ("WHERE k = 5".toList)))
      ("k".toList) = some ("5".toList) :=
  claim_C10_filters_override [("k".toList, "old".toList)] ("WHERE k = 5".toList)
    ("k".toList) ("5".toList) (by decide)

/-- Counterexample to C2 as stated: on a mapping that carries both a
`data` key and a `results` key the code takes `results`, not `data`, so
the claimed preference order (`data` first) is wrong. -/
theorem claim_C2_cex :
    _normalize_data (.jobj [("data", .jarr [.jint 1]), ("results", .jarr [.jint 2])])
      = [[("value", JValue.jint 2)]]
    ∧ _normalize_data (.jobj [("data", .jarr [.jint 1]), ("results", .jarr [.jint 2])])
      ≠ [[("value", JValue.jint 1)]] := by
  constructor
  · rfl
  · intro h
    simp only [show _normalize_data (.jobj [("data", .jarr [.jint 1]),
      ("results", .jarr [.jint 2])]) = [[("value", JValue.jint 2)]] from rfl] at h
    simp at h

/-- Claim C2 (amended): the wrapper key is the first-present key in the
preference order `results`, `data`, `items`, `records` (not `data`
first); if the chosen key's value is a sequence, that sequence becomes
the working rows, and a mapping containing none of these keys is
treated as a single row. -/
theorem claim_C2_wrapper_key (fs : List (String × JValue)) :
    (∀ es, dictGet fs "results" = some (.jarr es) →
      _normalize_data (.jobj fs) = es.map toRow)
    ∧ (dictGet fs "results" = none → ∀ es, dictGet fs "data" = some (.jarr es) →
      _normalize_data (.jobj fs) = es.map toRow)
    ∧ (dictGet fs "results" = none → dictGet fs "data" = none →
      ∀ es, dictGet fs "items" = some (.jarr es) →
      _normalize_data (.jobj fs) = es.map toRow)
    ∧ (dictGet fs "results" = none → dictGet fs "data" = none →
      dictGet fs "items" = none → ∀ es, dictGet fs "records" = some (.jarr es) →
      _normalize_data (.jobj fs) = es.map toRow)
    ∧ (dictGet fs "results" = none → dictGet fs "data" = none →
      dictGet fs "items" = none → dictGet fs "records" = none →
      _normalize_data (.jobj fs) = [fs]) := by
  refine ⟨?_, ?_, ?_, ?_, ?_⟩
  · intro es h
    simp [_normalize_data, pickWrapped, h]
  · intro h1 es h
    simp [_normalize_data, pickWrapped, h1, h]
  · intro h1 h2 es h
    simp [_normalize_data, pickWrapped, h1, h2, h]
  · intro h1 h2 h3 es h
    simp [_normalize_data, pickWrapped, h1, h2, h3, h]
  · intro h1 h2 h3 h4
    simp [_normalize_data, pickWrapped, h1, h2, h3, h4, toRow]

/-- Witness for C2 at a concrete input: `results` wins over `data`. -/
theorem claim_C2_wrapper_key_witness :
    _normalize_data (.jobj [("data", .jarr [.jint 1]), ("results", .jarr [.jint 2])])
      = [[("value", JValue.jint 2)]] :=
  (claim_C2_wrapper_key [("data", .jarr [.jint 1]), ("results", .jarr [.jint 2])]).1
    [.jint 2] rfl

/-- Counterexample to C3 as stated: with `LIMIT 0` the code skips the
truncation (`if limit > 0 and …`), so a one-row document yields one row,
which is not `≤ 0`. -/
theorem claim_C3_cex :
    ¬ ((executeRows (some ("LIMIT 0".toList)) (.jarr [.jint 1])).length
        ≤ limitOf (some ("LIMIT 0".toList))) := by
  decide

/-- Claim C3 (amended): after execution the stored row count is at most
the translated limit whenever that limit is positive (a limit of 0
disables truncation), and at most the row count the normalizer
produced; the kept rows are an order-preserving prefix of the
normalized rows. -/
theorem claim_C3_truncation (op : Option (List Char)) (d : JValue) :
    (0 < limitOf op → (executeRows op d).length ≤ limitOf op)
    ∧ (executeRows op d).length ≤ (_normalize_data d).length
    ∧ (executeRows op d = (_normalize_data d).take (limitOf op)
        ∨ executeRows op d = _normalize_data d)
    ∧ (∀ params text,
        execute op params (fun _ => .returned ⟨200, text, .ok d⟩) = .ok (executeRows op d)) := by
  have hexec : ∀ params text,
      execute op params (fun _ => .returned ⟨200, text, .ok d⟩) = .ok (executeRows op d) :=
    fun _ _ => rfl
  have htr : (0 < limitOf op → (executeRows op d).length ≤ limitOf op)
      ∧ (executeRows op d).length ≤ (_normalize_data d).length
      ∧ (executeRows op d = (_normalize_data d).take (limitOf op)
          ∨ executeRows op d = _normalize_data d) := by
    unfold executeRows truncRows
    by_cases hc : 0 < limitOf op ∧ limitOf op < (_normalize_data d).length
    · rw [if_pos hc]
      refine ⟨fun _ => ?_, ?_, Or.inl rfl⟩
      · rw [List.length_take]
        omega
      · rw [List.length_take]
        omega
    · rw [if_neg hc]
      push_neg at hc
      exact ⟨fun h0 => hc h0, Nat.le_refl _, Or.inr rfl⟩
  exact ⟨htr.1, htr.2.1, htr.2.2, hexec⟩

/-- Witness for C3 at a concrete input: `LIMIT 2` over a three-row
document keeps two rows. -/
theorem claim_C3_truncation_witness :
    (executeRows (some ("LIMIT 2".toList)) (.jarr [.jint 1, .jint 2, .jint 3])).length
      ≤ limitOf (some ("LIMIT 2".toList)) :=
  (claim_C3_truncation (some ("LIMIT 2".toList)) (.jarr [.jint 1, .jint 2, .jint 3])).1
    (by decide)

/-- Claim C6 (code bug): because `bool` is a subclass of `int` in
Python, a boolean first hits the `isinstance(value, int)` branch, so
`get_columns` tags booleans `Integer` — its `Boolean` branch is dead —
contradicting the claimed boolean tag; likewise `_create_description`
gives booleans `NUMBER` through its `int` branch.  The remaining parts
of the claim hold and are evaluated here as well: integers and floats
get numeric tags, mappings and sequences get the `JSON` tag, `None` and
strings get text, and an empty row sequence degrades to the single
generic text column named `data`. -/
theorem claim_C6_type_inference :
    saClassify (.jbool true) = .integer
    ∧ saClassify (.jbool false) = .integer
    ∧ SqlaType.integer ≠ SqlaType.boolean
    ∧ typeCodeFor (.jbool true) = NUMBER
    ∧ saClassify (.jint 7) = .integer
    ∧ saClassify (.jfloat "1.5".toList) = .float
    ∧ saClassify (.jobj []) = .json
    ∧ saClassify (.jarr []) = .json
    ∧ saClassify .jnull = .text
    ∧ saClassify (.jstr "x") = .text
    ∧ get_columns [] = [⟨"data", .text, true⟩]
    ∧ get_columns [[("flag", .jbool true)]] = [⟨"flag", .integer, true⟩] := by
  refine ⟨rfl, rfl, by decide, rfl, rfl, rfl, rfl, rfl, rfl, rfl, rfl, rfl⟩

/-- Claim C7 (code bug): `execute` raises `OperationalError` for a
non-200 status and `DataError` for an undecodable body, but both are
then caught by its own blanket `except Exception` and re-wrapped as
`DatabaseError("Execution error: …")`, so the protocol/status and
payload-decode failures reach the caller as the same kind; only the
network failure keeps a distinct kind (`OperationalError("Network
error: …")`, via the `except requests.RequestException` clause). -/
theorem claim_C7_failure_kinds :
    execute (some ("SELECT 1".toList)) [] (fun _ => .returned ⟨404, "nf", .error "x"⟩)
      = .error (.databaseError "Execution error: API returned 404: nf")
    ∧ execute (some ("SELECT 1".toList)) [] (fun _ => .returned ⟨200, "", .error "bad"⟩)
      = .error (.databaseError "Execution error: Invalid JSON response: bad")
    ∧ execute (some ("SELECT 1".toList)) [] (fun _ => .raised "conn")
      = .error (.operationalError "Network error: conn")
    ∧ PyExn.databaseError "Execution error: API returned 404: nf"
        ≠ PyExn.operationalError "API returned 404: nf"
    ∧ PyExn.databaseError "Execution error: Invalid JSON response: bad"
        ≠ PyExn.dataError "Invalid JSON response: bad" := by
  refine ⟨rfl, rfl, rfl, by decide, by decide⟩

theorem dropWhile_length_le {α : Type} (p : α → Bool) (l : List α) :
    (l.dropWhile p).length ≤ l.length := by
  induction l with
  | nil => simp
  | cons x xs ih =>
    by_cases hx : p x = true
    · simp only [List.dropWhile_cons, hx, if_true, List.length_cons]
      omega
    · simp [List.dropWhile_cons, hx]

theorem matchValueAt_rest_length (r4 g2 g3 g4 rest : List Char)
    (h : matchValueAt r4 = some (g2, g3, g4, rest)) : rest.length ≤ r4.length := by
  unfold matchValueAt at h
  by_cases h1 : r4.head? = some dquote
  · rw [if_pos h1] at h
    by_cases h2 : (r4.tail.dropWhile (fun a => a ≠ dquote)).isEmpty
    · rw [if_pos h2] at h; exact absurd h (by simp)
    · rw [if_neg h2] at h
      simp only [Option.some.injEq, Prod.mk.injEq] at h
      obtain ⟨-, -, -, h4⟩ := h
      subst h4
      have a1 := dropWhile_length_le (fun a => a ≠ dquote) r4.tail
      have a2 : ((r4.tail.dropWhile (fun a => a ≠ dquote)).tail).length
          ≤ (r4.tail.dropWhile (fun a => a ≠ dquote)).length := by
        rw [List.length_tail]; omega
      have a3 : r4.tail.length ≤ r4.length := by
        rw [List.length_tail]; omega
      omega
  · rw [if_neg h1] at h
    by_cases h1' : r4.head? = some squote
    · rw [if_pos h1'] at h
      by_cases h2 : (r4.tail.dropWhile (fun a => a ≠ squote)).isEmpty
      · rw [if_pos h2] at h; exact absurd h (by simp)
      · rw [if_neg h2] at h
        simp only [Option.some.injEq, Prod.mk.injEq] at h
        obtain ⟨-, -, -, h4⟩ := h
        subst h4
        have a1 := dropWhile_length_le (fun a => a ≠ squote) r4.tail
        have a2 : ((r4.tail.dropWhile (fun a => a ≠ squote)).tail).length
            ≤ (r4.tail.dropWhile (fun a => a ≠ squote)).length := by
          rw [List.length_tail]; omega
        have a3 : r4.tail.length ≤ r4.length := by
          rw [List.length_tail]; omega
        omega
    · rw [if_neg h1'] at h
      by_cases h2 : (r4.takeWhile isPyWord).isEmpty
      · rw [if_pos h2] at h; exact absurd h (by simp)
      · rw [if_neg h2] at h
        simp only [Option.some.injEq, Prod.mk.injEq] at h
        obtain ⟨-, -, -, h4⟩ := h
        subst h4
        exact dropWhile_length_le isPyWord r4

theorem matchCondAt_rest_length (l : List Char) (m : CondMatch) (rest : List Char)
    (h : matchCondAt l = some (m, rest)) : rest.length < l.length := by
  unfold matchCondAt at h
  by_cases hkey : (l.takeWhile isPyWord).isEmpty
  · rw [if_pos hkey] at h; exact absurd h (by simp)
  · rw [if_neg hkey] at h
    by_cases heq : ((l.dropWhile isPyWord).dropWhile isPySpace).head? = some '='
    · rw [if_pos heq] at h
      cases hv : matchValueAt ((((l.dropWhile isPyWord).dropWhile isPySpace).tail).dropWhile isPySpace) with
      | none => rw [hv] at h; exact absurd h (by simp)
      | some q =>
        obtain ⟨g2, g3, g4, rest'⟩ := q
        rw [hv] at h
        simp only [Option.map_some', Option.some.injEq, Prod.mk.injEq] at h
        obtain ⟨-, hrest⟩ := h
        subst hrest
        have hval := matchValueAt_rest_length _ _ _ _ _ hv
        have l1 := dropWhile_length_le isPySpace (((l.dropWhile isPyWord).dropWhile isPySpace).tail)
        have l2b : 1 ≤ ((l.dropWhile isPyWord).dropWhile isPySpace).length := by
          cases hh : (l.dropWhile isPyWord).dropWhile isPySpace with
          | nil => rw [hh] at heq; simp at heq
          | cons a t => simp
        have l2 : (((l.dropWhile isPyWord).dropWhile isPySpace).tail).length
            ≤ ((l.dropWhile isPyWord).dropWhile isPySpace).length - 1 := by
          rw [List.length_tail]
        have l3 := dropWhile_length_le isPySpace (l.dropWhile isPyWord)
        have l4 : (l.dropWhile isPyWord).length + (l.takeWhile isPyWord).length = l.length := by
          have hb := congrArg List.length
            (List.takeWhile_append_dropWhile (p := isPyWord) (l := l))
          rw [List.length_append] at hb
          omega
        have l5 : 1 ≤ (l.takeWhile isPyWord).length := by
          cases hh : l.takeWhile isPyWord with
          | nil => rw [hh] at hkey; exact absurd rfl hkey
          | cons a t => simp
        omega
    · rw [if_neg heq] at h; exact absurd h (by simp)

theorem findCondsF_stable : ∀ f1 : Nat, ∀ f2 : Nat, ∀ l : List Char,
    l.length ≤ f1 → l.length ≤ f2 → findCondsF f1 l = findCondsF f2 l := by
  intro f1
  induction f1 with
  | zero =>
    intro f2 l h1 _
    have hl : l = [] := List.length_eq_zero.mp (Nat.le_zero.mp h1)
    subst hl
    cases f2 with
    | zero => rfl
    | succ g => rfl
  | succ f1' ih =>
    intro f2 l h1 h2
    cases l with
    | nil =>
      cases f2 with
      | zero => rfl
      | succ g => rfl
    | cons c cs =>
      cases f2 with
      | zero => simp at h2
      | succ g =>
        simp only [List.length_cons] at h1 h2
        simp only [findCondsF]
        cases hm : matchCondAt (c :: cs) with
        | some pr =>
          obtain ⟨m, rest⟩ := pr
          have hrlen := matchCondAt_rest_length (c :: cs) m rest hm
          simp only [List.length_cons] at hrlen
          simp only [hm]
          rw [ih g rest (by omega) (by omega)]
        | none =>
          simp only [hm]
          exact ih g cs (by omega) (by omega)

theorem findConds_cons (c : Char) (cs : List Char) (m : CondMatch) (rest : List Char)
    (h : matchCondAt (c :: cs) = some (m, rest)) :
    findConds (c :: cs) = m :: findConds rest := by
  unfold findConds
  have hstep : findCondsF (c :: cs).length (c :: cs) = m :: findCondsF cs.length rest := by
    simp only [List.length_cons, findCondsF, h]
  rw [hstep]
  have hrlen := matchCondAt_rest_length (c :: cs) m rest h
  simp only [List.length_cons] at hrlen
  rw [findCondsF_stable cs.length rest.length rest (by omega) (Nat.le_refl _)]

theorem word_not_space (c : Char) (h : isPyWord c = true) : isPySpace c = false := by
  simp only [isPyWord, decide_eq_true_eq] at h
  simp only [isPySpace, decide_eq_false_iff_not]
  omega

theorem matchValueAt_dq (v post : List Char) (hv : ∀ a ∈ v, a ≠ dquote) :
    matchValueAt (dquote :: v ++ dquote :: post) = some (v, [], [], post) := by
  unfold matchValueAt
  rw [if_pos (by simp)]
  have hall : ∀ a ∈ v, (fun a => decide (a ≠ dquote)) a = true := by
    intro a ha
    simpa using hv a ha
  have hstop : ∀ c, (dquote :: post).head? = some c → (fun a => decide (a ≠ dquote)) c = false := by
    intro c hc
    simp only [List.head?_cons, Option.some.injEq] at hc
    subst hc
    simp
  have htake : (dquote :: v ++ dquote :: post).tail.takeWhile (fun a => decide (a ≠ dquote)) = v := by
    simp only [List.cons_append, List.tail_cons]
    rw [takeWhile_append_all _ v (dquote :: post) hall, takeWhile_nil_of_head _ _ hstop,
      List.append_nil]
  have hdrop : (dquote :: v ++ dquote :: post).tail.dropWhile (fun a => decide (a ≠ dquote))
      = dquote :: post := by
    simp only [List.cons_append, List.tail_cons]
    rw [dropWhile_append_all _ v (dquote :: post) hall, dropWhile_self_of_head _ _ hstop]
  rw [hdrop]
  rw [if_neg (by simp)]
  rw [htake]
  simp only [List.tail_cons]

theorem matchValueAt_sq (v post : List Char) (hv : ∀ a ∈ v, a ≠ squote) :
    matchValueAt (squote :: v ++ squote :: post) = some ([], v, [], post) := by
  unfold matchValueAt
  rw [if_neg (by simp only [List.cons_append, List.head?_cons, Option.some.injEq]; decide)]
  rw [if_pos (by simp)]
  have hall : ∀ a ∈ v, (fun a => decide (a ≠ squote)) a = true := by
    intro a ha
    simpa using hv a ha
  have hstop : ∀ c, (squote :: post).head? = some c → (fun a => decide (a ≠ squote)) c = false := by
    intro c hc
    simp only [List.head?_cons, Option.some.injEq] at hc
    subst hc
    simp
  have htake : (squote :: v ++ squote :: post).tail.takeWhile (fun a => decide (a ≠ squote)) = v := by
    simp only [List.cons_append, List.tail_cons]
    rw [takeWhile_append_all _ v (squote :: post) hall, takeWhile_nil_of_head _ _ hstop,
      List.append_nil]
  have hdrop : (squote :: v ++ squote :: post).tail.dropWhile (fun a => decide (a ≠ squote))
      = squote :: post := by
    simp only [List.cons_append, List.tail_cons]
    rw [dropWhile_append_all _ v (squote :: post) hall, dropWhile_self_of_head _ _ hstop]
  rw [hdrop]
  rw [if_neg (by simp)]
  rw [htake]
  simp only [List.tail_cons]

theorem matchValueAt_bare (v post : List Char) (hv : v ≠ [])
    (hvw : ∀ a ∈ v, isPyWord a = true)
    (hpost : ∀ c, post.head? = some c → isPyWord c = false) :
    matchValueAt (v ++ post) = some ([], [], v, post) := by
  have hne : ∀ q : Char, isPyWord q = false → ¬ ((v ++ post).head? = some q) := by
    intro q hq hh
    cases v with
    | nil => exact absurd rfl hv
    | cons c0 v' =>
      simp only [List.cons_append, List.head?_cons, Option.some.injEq] at hh
      have hw := hvw c0 (by simp)
      rw [hh, hq] at hw
      exact absurd hw (by simp)
  unfold matchValueAt
  rw [if_neg (hne dquote (by decide)), if_neg (hne squote (by decide))]
  have htake : (v ++ post).takeWhile isPyWord = v := by
    rw [takeWhile_append_all _ v post hvw, takeWhile_nil_of_head _ _ hpost, List.append_nil]
  have hdrop : (v ++ post).dropWhile isPyWord = post := by
    rw [dropWhile_append_all _ v post hvw, dropWhile_self_of_head _ _ hpost]
  rw [htake, hdrop]
  rw [if_neg (by simpa [List.isEmpty_iff] using hv)]

theorem matchCondAt_shape (col s1 s2 tail4 : List Char)
    (gs : List Char × List Char × List Char × List Char)
    (hcol : col ≠ []) (hcolw : ∀ a ∈ col, isPyWord a = true)
    (hs1 : ∀ a ∈ s1, isPySpace a = true) (hs2 : ∀ a ∈ s2, isPySpace a = true)
    (hhead : ∀ c, tail4.head? = some c → isPySpace c = false)
    (hval : matchValueAt tail4 = some gs) :
    matchCondAt (col ++ s1 ++ '=' :: s2 ++ tail4)
      = some (⟨col, gs.1, gs.2.1, gs.2.2.1⟩, gs.2.2.2) := by
  have hnw : ∀ c, (s1 ++ '=' :: (s2 ++ tail4)).head? = some c → isPyWord c = false := by
    intro c hc
    cases s1 with
    | nil =>
      simp only [List.nil_append, List.head?_cons, Option.some.injEq] at hc
      subst hc
      decide
    | cons a t =>
      simp only [List.cons_append, List.head?_cons, Option.some.injEq] at hc
      rw [← hc]
      exact space_not_word a (hs1 a (by simp))
  have hl : col ++ s1 ++ '=' :: s2 ++ tail4 = col ++ (s1 ++ '=' :: (s2 ++ tail4)) := by
    simp [List.append_assoc]
  have htakekey : (col ++ s1 ++ '=' :: s2 ++ tail4).takeWhile isPyWord = col := by
    rw [hl, takeWhile_append_all _ col _ hcolw, takeWhile_nil_of_head _ _ hnw, List.append_nil]
  have hdropkey : (col ++ s1 ++ '=' :: s2 ++ tail4).dropWhile isPyWord
      = s1 ++ '=' :: (s2 ++ tail4) := by
    rw [hl, dropWhile_append_all _ col _ hcolw, dropWhile_self_of_head _ _ hnw]
  have hns : ∀ c, ('=' :: (s2 ++ tail4)).head? = some c → isPySpace c = false := by
    intro c hc
    simp only [List.head?_cons, Option.some.injEq] at hc
    subst hc
    decide
  have hdropsp : (s1 ++ '=' :: (s2 ++ tail4)).dropWhile isPySpace = '=' :: (s2 ++ tail4) := by
    rw [dropWhile_append_all _ s1 _ hs1, dropWhile_self_of_head _ _ hns]
  have hdropsp2 : (s2 ++ tail4).dropWhile isPySpace = tail4 := by
    rw [dropWhile_append_all _ s2 _ hs2, dropWhile_self_of_head _ _ hhead]
  unfold matchCondAt
  rw [htakekey, hdropkey, hdropsp]
  rw [if_neg (by simpa [List.isEmpty_iff] using hcol)]
  rw [if_pos (by simp)]
  simp only [List.tail_cons]
  rw [hdropsp2, hval]
  rfl

theorem buildFilters_fold_preserve (ms : List CondMatch) :
    ∀ fs : List (List Char × List Char), ∀ k : List Char, (∀ m ∈ ms, m.key ≠ k) →
      dictGet (ms.foldl
        (fun fs m =>
          match condValue m with
          | some v => dictInsert fs m.key v
          | none => fs)
        fs) k = dictGet fs k := by
  induction ms with
  | nil => intro fs k _; rfl
  | cons m rest ih =>
    intro fs k hk
    simp only [List.foldl_cons]
    cases hv : condValue m with
    | none =>
      simp only [hv]
      exact ih fs k (fun m' hm' => hk m' (List.mem_cons_of_mem m hm'))
    | some v =>
      simp only [hv]
      rw [ih (dictInsert fs m.key v) k (fun m' hm' => hk m' (List.mem_cons_of_mem m hm')),
        dictGet_insert_ne fs m.key k v (hk m (List.mem_cons_self m rest))]

theorem buildFilters_lookup_head (m0 : CondMatch) (ms : List CondMatch) (v : List Char)
    (hval : condValue m0 = some v) (hlater : ∀ m ∈ ms, m.key ≠ m0.key) :
    dictGet (buildFilters (m0 :: ms)) m0.key = some v := by
  unfold buildFilters
  simp only [List.foldl_cons, hval]
  rw [buildFilters_fold_preserve ms (dictInsert [] m0.key v) m0.key hlater,
    dictGet_insert_self]

theorem parse_filters_of_match (q : List Char) (c0 : Char) (cs : List Char)
    (m0 : CondMatch) (post v : List Char)
    (hw : searchWhere q = some (c0 :: cs))
    (hcond : matchCondAt (c0 :: cs) = some (m0, post))
    (hval : condValue m0 = some v)
    (hlater : ∀ m ∈ findConds post, m.key ≠ m0.key) :
    dictGet (_parse_filters q) m0.key = some v := by
  have hpf : _parse_filters q = buildFilters (findConds (c0 :: cs)) := by
    unfold _parse_filters
    rw [hw]
  rw [hpf, findConds_cons c0 cs m0 post hcond]
  exact buildFilters_lookup_head m0 (findConds post) v hval hlater

/-- Counterexample to C5 as stated: in `WHERE col = ''` the condition
matches the pattern with an empty quoted value, but Python's
`next((v for v in match[1:] if v), None)` treats the empty string as
falsy, so no `col` entry is produced at all — the claim requires
`col -> ""`. -/
theorem claim_C5_cex :
    _parse_filters ("SELECT * FROM t WHERE col = ".toList ++ [squote, squote]) = []
    ∧ dictGet (_parse_filters ("SELECT * FROM t WHERE col = ".toList ++ [squote, squote]))
        ("col".toList) = none := by
  constructor
  · decide
  · decide

/-- Claim C5 (amended): for every query string whose extracted WHERE
clause starts with an equality condition `col = v` — `v` single-quoted,
double-quoted, or a bare word — the translator's filter mapping maps
`col` to `v` with the quoting stripped, provided `v` is nonempty (an
empty quoted value is falsy in Python and produces no entry) and no
later condition in the clause re-assigns `col` (Python dict assignment
makes the last condition win). -/
theorem claim_C5_where_filters (q col s1 s2 v post : List Char)
    (hcol : col ≠ []) (hcolw : ∀ a ∈ col, isPyWord a = true)
    (hs1 : ∀ a ∈ s1, isPySpace a = true) (hs2 : ∀ a ∈ s2, isPySpace a = true)
    (hv : v ≠ [])
    (hshape :
      (searchWhere q = some (col ++ s1 ++ '=' :: s2 ++ (dquote :: v ++ dquote :: post))
        ∧ ∀ a ∈ v, a ≠ dquote)
      ∨ (searchWhere q = some (col ++ s1 ++ '=' :: s2 ++ (squote :: v ++ squote :: post))
        ∧ ∀ a ∈ v, a ≠ squote)
      ∨ (searchWhere q = some (col ++ s1 ++ '=' :: s2 ++ (v ++ post))
        ∧ (∀ a ∈ v, isPyWord a = true)
        ∧ ∀ c, post.head? = some c → isPyWord c = false))
    (hlater : ∀ m ∈ findConds post, m.key ≠ col) :
    dictGet (_parse_filters q) col = some v := by
  have hvE : v.isEmpty = false := by
    cases v with
    | nil => exact absurd rfl hv
    | cons a t => rfl
  cases col with
  | nil => exact absurd rfl hcol
  | cons c0 col' =>
    rcases hshape with ⟨hw, hq⟩ | ⟨hw, hq⟩ | ⟨hw, hq1, hq2⟩
    · have hhead : ∀ c, (dquote :: v ++ dquote :: post).head? = some c →
          isPySpace c = false := by
        intro c hc
        simp only [List.cons_append, List.head?_cons, Option.some.injEq] at hc
        rw [← hc]
        decide
      have hcond := matchCondAt_shape (c0 :: col') s1 s2 (dquote :: v ++ dquote :: post)
        (v, [], [], post) hcol hcolw hs1 hs2 hhead (matchValueAt_dq v post hq)
      simp only [List.cons_append] at hw hcond
      exact parse_filters_of_match q c0 _ ⟨c0 :: col', v, [], []⟩ post v hw hcond
        (by simp [condValue, hvE]) hlater
    · have hhead : ∀ c, (squote :: v ++ squote :: post).head? = some c →
          isPySpace c = false := by
        intro c hc
        simp only [List.cons_append, List.head?_cons, Option.some.injEq] at hc
        rw [← hc]
        decide
      have hcond := matchCondAt_shape (c0 :: col') s1 s2 (squote :: v ++ squote :: post)
        ([], v, [], post) hcol hcolw hs1 hs2 hhead (matchValueAt_sq v post hq)
      simp only [List.cons_append] at hw hcond
      exact parse_filters_of_match q c0 _ ⟨c0 :: col', [], v, []⟩ post v hw hcond
        (by simp [condValue, hvE]) hlater
    · have hhead : ∀ c, (v ++ post).head? = some c → isPySpace c = false := by
        intro c hc
        cases v with
        | nil => exact absurd rfl hv
        | cons a t =>
          simp only [List.cons_append, List.head?_cons, Option.some.injEq] at hc
          rw [← hc]
          exact word_not_space a (hq1 a (by simp))
      have hcond := matchCondAt_shape (c0 :: col') s1 s2 (v ++ post)
        ([], [], v, post) hcol hcolw hs1 hs2 hhead (matchValueAt_bare v post hv hq1 hq2)
      simp only [List.cons_append] at hw hcond
      exact parse_filters_of_match q c0 _ ⟨c0 :: col', [], [], v⟩ post v hw hcond
        (by simp [condValue, hvE]) hlater

/-- Witness for C5 at a concrete input: the single-quoted condition
`WHERE name = 'bob'` yields the filter entry `name -> bob`. -/
theorem claim_C5_where_filters_witness :
    dictGet (_parse_filters ("SELECT * FROM t WHERE name = ".toList
        ++ [squote] ++ "bob".toList ++ [squote])) ("name".toList)
      = some ("bob".toList) := by
  apply claim_C5_where_filters _ _ [' '] [' '] _ []
  · decide
  · decide
  · decide
  · decide
  · decide
  · exact Or.inr (Or.inl ⟨by decide, by decide⟩)
  · decide

theorem dictGet_append_some {α β : Type} [DecidableEq α] (a b : List (α × β)) (k : α) (v : β)
    (h : dictGet a k = some v) : dictGet (a ++ b) k = some v := by
  induction a with
  | nil => simp [dictGet] at h
  | cons kv rest ih =>
    obtain ⟨k', v'⟩ := kv
    by_cases hk : k' = k
    · simp only [dictGet, if_pos hk] at h
      simp only [List.cons_append, dictGet, if_pos hk]
      exact h
    · simp only [dictGet, if_neg hk] at h
      simp only [List.cons_append, dictGet, if_neg hk]
      exact ih h

theorem dictGet_append_none {α β : Type} [DecidableEq α] (a b : List (α × β)) (k : α)
    (h : dictGet a k = none) : dictGet (a ++ b) k = dictGet b k := by
  induction a with
  | nil => simp
  | cons kv rest ih =>
    obtain ⟨k', v'⟩ := kv
    by_cases hk : k' = k
    · simp only [dictGet, if_pos hk] at h
      exact absurd h (by simp)
    · simp only [dictGet, if_neg hk] at h
      simp only [List.cons_append, dictGet, if_neg hk]
      exact ih h

theorem dictGet_some_mem_keys {α β : Type} [DecidableEq α] (l : List (α × β)) (k : α) (v : β)
    (h : dictGet l k = some v) : k ∈ l.map Prod.fst := by
  induction l with
  | nil => simp [dictGet] at h
  | cons kv rest ih =>
    obtain ⟨k', v'⟩ := kv
    by_cases hk : k' = k
    · simp [hk]
    · simp only [dictGet, if_neg hk] at h
      simp [ih h]

theorem dictGet_constMap_mem {α β : Type} [DecidableEq α] (ks : List α) (c : β) (k : α)
    (h : k ∈ ks) : dictGet (ks.map (fun k => (k, c))) k = some c := by
  induction ks with
  | nil => simp at h
  | cons a t ih =>
    simp only [List.mem_cons] at h
    by_cases ha : a = k
    · simp [dictGet, ha]
    · have hm : k ∈ t := by
        rcases h with h | h
        · exact absurd h.symm ha
        · exact h
      simp [dictGet, ha, ih hm]

theorem mem_insKey (acc : List String) (k k' : String) :
    k' ∈ insKey acc k ↔ k' ∈ acc ∨ k' = k := by
  unfold insKey
  by_cases h : k ∈ acc
  · rw [if_pos h]
    constructor
    · exact Or.inl
    · rintro (h1 | h1)
      · exact h1
      · rw [h1]; exact h
  · rw [if_neg h]
    simp

theorem mem_foldl_insKey (ks : List String) :
    ∀ acc k, k ∈ ks.foldl insKey acc ↔ k ∈ acc ∨ k ∈ ks := by
  induction ks with
  | nil => simp
  | cons a t ih =>
    intro acc k
    simp only [List.foldl_cons]
    rw [ih (insKey acc a) k, mem_insKey]
    simp only [List.mem_cons]
    tauto

theorem mem_fmtAllKeys_aux (rows : List JValue) :
    ∀ acc k, (k ∈ rows.foldl (fun acc r => (elemKeys r).foldl insKey acc) acc)
      ↔ k ∈ acc ∨ ∃ r ∈ rows, k ∈ elemKeys r := by
  induction rows with
  | nil => simp
  | cons r t ih =>
    intro acc k
    simp only [List.foldl_cons]
    rw [ih ((elemKeys r).foldl insKey acc) k, mem_foldl_insKey]
    simp only [List.mem_cons]
    constructor
    · rintro ((h | h) | ⟨r', hr', hk⟩)
      · exact Or.inl h
      · exact Or.inr ⟨r, Or.inl rfl, h⟩
      · exact Or.inr ⟨r', Or.inr hr', hk⟩
    · rintro (h | ⟨r', (hr' | hr'), hk⟩)
      · exact Or.inl (Or.inl h)
      · subst hr'
        exact Or.inl (Or.inr hk)
      · exact Or.inr ⟨r', hr', hk⟩

theorem mem_fmtAllKeys (rows : List JValue) (k : String) :
    k ∈ fmtAllKeys rows ↔ ∃ r ∈ rows, k ∈ elemKeys r := by
  unfold fmtAllKeys
  rw [mem_fmtAllKeys_aux rows [] k]
  simp

/-- Counterexample to C1 as stated: the cursor normalizer
`_normalize_data` performs no key-union padding at all — on
`[{"a": 1}, {"b": 2}]` the first produced row lacks the key `b` of the
union entirely (no null is inserted). -/
theorem claim_C1_cex :
    _normalize_data (.jarr [.jobj [("a", .jint 1)], .jobj [("b", .jint 2)]])
      = [[("a", JValue.jint 1)], [("b", JValue.jint 2)]]
    ∧ keyUnionRows (_normalize_data (.jarr [.jobj [("a", .jint 1)], .jobj [("b", .jint 2)]]))
      = ["a", "b"]
    ∧ dictGet ((_normalize_data (.jarr [.jobj [("a", .jint 1)],
        .jobj [("b", .jint 2)]])).headD []) "b" = none := by
  refine ⟨rfl, rfl, rfl⟩

/-- Claim C1 (amended): the key-union invariant holds for the standalone
formatter `format_api_response_for_superset`, which pads every dict row
with null for each missing key of the union — but not for the cursor's
`_normalize_data`, which returns source rows unchanged.  For every
document whose working row list the formatter processes, every dict row
of the output has exactly the union of the dict rows' keys, and each
key the source row lacked is mapped to null. -/
theorem claim_C1_key_union (d : JValue) (rows : List JValue)
    (fs : List (String × JValue)) (k : String)
    (h0 : fmtWorkingRows d = some rows) (hr : JValue.jobj fs ∈ rows) :
    ((dictGet (padFields (fmtAllKeys rows) fs) k).isSome = true ↔ k ∈ fmtAllKeys rows)
    ∧ (k ∈ fmtAllKeys rows → dictGet fs k = none →
        dictGet (padFields (fmtAllKeys rows) fs) k = some JValue.jnull)
    ∧ format_api_response_for_superset d = some (rows.map (fmtPadRow (fmtAllKeys rows))) := by
  have hmiss : k ∈ fmtAllKeys rows → dictGet fs k = none →
      dictGet (padFields (fmtAllKeys rows) fs) k = some JValue.jnull := by
    intro hk hnone
    unfold padFields
    rw [dictGet_append_none fs _ k hnone]
    apply dictGet_constMap_mem
    rw [List.mem_filter]
    exact ⟨hk, by simp [hnone]⟩
  refine ⟨⟨?_, ?_⟩, hmiss, ?_⟩
  · intro hs
    obtain ⟨v, hv⟩ := Option.isSome_iff_exists.mp hs
    have hmem := dictGet_some_mem_keys _ _ _ hv
    unfold padFields at hmem
    rw [List.map_append, List.mem_append] at hmem
    rcases hmem with hmem | hmem
    · rw [mem_fmtAllKeys]
      exact ⟨.jobj fs, hr, by simpa [elemKeys, rowKeys] using hmem⟩
    · simp only [List.map_map] at hmem
      have : k ∈ (fmtAllKeys rows).filter (fun k => (dictGet fs k).isNone) := by
        simpa using hmem
      exact (List.mem_filter.mp this).1
  · intro hk
    cases hv : dictGet fs k with
    | some v =>
      unfold padFields
      rw [dictGet_append_some fs _ k v hv]
      simp
    | none =>
      rw [hmiss hk hv]
      simp
  · unfold format_api_response_for_superset
    rw [h0]

/-- Witness for C1 at a concrete input: on `[{"a": 1}, {"b": 2}]` the
formatter pads the first row's missing key `b` with null. -/
theorem claim_C1_key_union_witness :
    dictGet (padFields
        (fmtAllKeys [.jobj [("a", .jint 1)], .jobj [("b", .jint 2)]])
        [("a", .jint 1)]) "b" = some JValue.jnull := by
  apply (claim_C1_key_union (.jarr [.jobj [("a", .jint 1)], .jobj [("b", .jint 2)]])
    [.jobj [("a", .jint 1)], .jobj [("b", .jint 2)]] [("a", .jint 1)] "b" rfl
    (List.mem_cons_self _ _)).2.1
  · rw [mem_fmtAllKeys]
    exact ⟨.jobj [("b", .jint 2)], by simp, by simp [elemKeys, rowKeys]⟩
  · rfl
